import Mathlib

/-
  Verification development for the CFG-Parser repository (src/parser.py,
  src/parser1.py).  The Python code is shallowly embedded: Python sets are
  modelled as duplicate-free insertion-ordered lists (so that the length
  growth test used by the fixed-point loops is faithful to len(set)),
  dictionaries as functions or association lists, and the while-changed
  fixed-point loops as fuel-bounded iteration where the fuel strictly
  exceeds the number of passes the monotone loop can take, so the loop
  always exits through its own changed = false test exactly as in Python.
-/

/-- A production rule, as the Python dataclass Production (left, right). -/
structure Production where
  left : String
  right : List String
deriving DecidableEq, Repr

/-- Grammar data as held by the Python CFGParser object after grammar
ingestion: ordered production list, non-terminal and terminal sets
(modelled as lists), and the start symbol. -/
structure CFG where
  productions : List Production
  non_terminals : List String
  terminals : List String
  start_symbol : String
deriving DecidableEq, Repr

/-- Python set.add on the list model: append the element if absent.  The
list length grows exactly when the Python set size would grow. -/
def sadd (l : List String) (x : String) : List String :=
  if x ∈ l then l else l ++ [x]

/-- Python set.update: fold set.add over the added elements. -/
def supdate (l add : List String) : List String :=
  add.foldl sadd l

/-- The defaultdict(set) model: a total function defaulting to the empty
set for untouched keys. -/
abbrev SMap := String → List String

/-- Point update of a set map, transforming the current value at one key. -/
def mupdate (m : SMap) (k : String) (f : List String → List String) : SMap :=
  fun s => if s = k then f (m k) else m s

/-- The empty defaultdict. -/
def semptyMap : SMap := fun _ => []

/-- One production of the body of compute_first_sets (parser.py lines
54-71): an empty body adds the empty marker and continues without touching
the changed flag (the Python continue skips the length comparison); a body
starting with a terminal adds that terminal; a body starting with a
non-terminal adds that symbol's current FIRST set minus the empty marker.
The changed flag records whether the head's set grew. -/
def firstUpd (g : CFG) (m : SMap) (pl fs : String) : SMap :=
  if fs ∈ g.terminals then mupdate m pl (fun l => sadd l fs)
  else mupdate m pl (fun l => supdate l ((m fs).filter (fun x => x ≠ "ε")))

def firstStep (g : CFG) (acc : SMap × Bool) (p : Production) : SMap × Bool :=
  match p.right with
  | [] => (mupdate acc.1 p.left (fun l => sadd l "ε"), acc.2)
  | fs :: _ =>
    (firstUpd g acc.1 p.left fs,
      acc.2 || decide ((firstUpd g acc.1 p.left fs p.left).length > (acc.1 p.left).length))

/-- One full pass of the while-changed loop of compute_first_sets. -/
def firstPass (g : CFG) (m : SMap) : SMap × Bool :=
  g.productions.foldl (firstStep g) (m, false)

/-- The while-changed loop: re-run passes while the changed flag is set.
The map produced by the final (unchanging) pass is returned, exactly as
the in-place Python mutation leaves it. -/
def firstIter (g : CFG) : Nat → SMap → SMap
  | 0, m => m
  | n + 1, m =>
    let r := firstPass g m
    if r.2 then firstIter g n r.1 else r.1

/-- Fuel bound for the FIRST loop: every pass that sets the changed flag
adds at least one element, each head's set stays inside
terminals ∪ empty-marker, so at most productions * (terminals + 2) + 2
passes can run before the flag stays false. -/
def firstFuel (g : CFG) : Nat :=
  g.productions.length * (g.terminals.length + 2) + 2

/-- compute_first_sets (parser.py lines 49-71, identical in parser1.py). -/
def compute_first_sets (g : CFG) : SMap :=
  firstIter g (firstFuel g) semptyMap

/-- The inner accumulation of compute_first_of_string (parser.py lines
115-137): scan the symbols, stopping at the first terminal or at the
first non-nullable non-terminal; if the scan falls off the end every
symbol was nullable and the empty marker is added. -/
def fosAux (g : CFG) (first : SMap) : List String → List String → List String
  | [], acc => sadd acc "ε"
  | s :: rest, acc =>
    if s ∈ g.terminals then sadd acc s
    else
      let acc' := supdate acc ((first s).filter (fun x => x ≠ "ε"))
      if "ε" ∈ first s then fosAux g first rest acc' else acc'

/-- compute_first_of_string (parser.py lines 115-137): FIRST of a symbol
string, the full left-to-right nullable walk. -/
def compute_first_of_string (g : CFG) (first : SMap) (symbols : List String) : List String :=
  fosAux g first symbols []

/-- Processing of one body position of compute_follow_sets (parser.py
lines 81-103).  The recursion carries the rest of the body, whose head is
the Python right[i + 1]; the empty rest is the Python last-position case.
Reads of follow[prod.left] happen after the possible first update at the
same position, matching the in-place mutation order. -/
def followNext (g : CFG) (first : SMap) (sym nxt : String) (m : SMap) : SMap :=
  if nxt ∈ g.terminals then mupdate m sym (fun l => sadd l nxt)
  else mupdate m sym (fun l => supdate l ((first nxt).filter (fun x => x ≠ "ε")))

/-- The two conditional updates for one non-terminal occurrence: when a
next symbol exists, first the not-last update (followNext), then the
propagation of FOLLOW(head) when the next symbol's FIRST set holds the
empty marker; at the last position only the propagation runs.  The
propagated FOLLOW(head) is read from the already-updated map, matching the
in-place mutation order of the Python loop body. -/
def followPos (g : CFG) (first : SMap) (left sym : String) :
    List String → SMap → SMap
  | [], m => mupdate m sym (fun l => supdate l (m left))
  | nxt :: _, m =>
    if "ε" ∈ first nxt then
      mupdate (followNext g first sym nxt m) sym
        (fun l => supdate l (followNext g first sym nxt m left))
    else followNext g first sym nxt m

def followBody (g : CFG) (first : SMap) (left : String) :
    List String → SMap × Bool → SMap × Bool
  | [], acc => acc
  | sym :: rest, acc =>
    if sym ∈ g.non_terminals then
      followBody g first left rest
        (followPos g first left sym rest acc.1,
          acc.2 || decide ((followPos g first left sym rest acc.1 sym).length
            > (acc.1 sym).length))
    else followBody g first left rest acc

/-- One full pass of the while-changed loop of compute_follow_sets. -/
def followPass (g : CFG) (first : SMap) (m : SMap) : SMap × Bool :=
  g.productions.foldl (fun acc p => followBody g first p.left p.right acc) (m, false)

/-- The while-changed loop of compute_follow_sets. -/
def followIter (g : CFG) (first : SMap) : Nat → SMap → SMap
  | 0, m => m
  | n + 1, m =>
    let r := followPass g first m
    if r.2 then followIter g first n r.1 else r.1

/-- Fuel bound for the FOLLOW loop: keys are non-terminals, values stay
inside terminals ∪ end-marker, so the changed flag can be set in at most
non_terminals * (terminals + 2) + 2 passes. -/
def followFuel (g : CFG) : Nat :=
  g.non_terminals.length * (g.terminals.length + 2) + 2

/-- compute_follow_sets (parser.py lines 73-101): seed the start symbol
with the end marker, then iterate to the fixed point. -/
def compute_follow_sets (g : CFG) (first : SMap) : SMap :=
  followIter g first (followFuel g)
    (mupdate semptyMap g.start_symbol (fun l => sadd l "$"))

/-- The parsing table: a Python dict modelled as an association list where
insertion conses at the front, so lookup (first match) sees the most
recent write, exactly the dict overwrite semantics. -/
abbrev Table := List ((String × String) × Production)

/-- Dict lookup: the most recently inserted binding of the key. -/
def tblLookup (t : Table) (k : String × String) : Option Production :=
  (t.find? (fun e => e.1 = k)).map (fun e => e.2)

/-- The keys written for one production by build_parsing_table (parser.py
lines 103-113): every terminal of FIRST(body) except the empty marker,
and additionally every member of FOLLOW(head) when the body is nullable. -/
def tableWrites (g : CFG) (first follow : SMap) (p : Production) : List (String × String) :=
  let fos := compute_first_of_string g first p.right
  ((fos.filter (fun x => x ≠ "ε")).map (fun t => (p.left, t)))
    ++ (if "ε" ∈ fos then (follow p.left).map (fun t => (p.left, t)) else [])

/-- build_parsing_table (parser.py lines 103-113): each write is an
unconditional dict assignment; nothing is recorded on collision. -/
def build_parsing_table (g : CFG) (first follow : SMap) : Table :=
  g.productions.foldl
    (fun t p => (tableWrites g first follow p).foldl (fun t k => (k, p) :: t) t) []

/-- detect_direct_left_recursion (parser1.py lines 228-235): flag every
production whose nonempty body starts with its own head. -/
def detect_direct_left_recursion (g : CFG) : List Production :=
  g.productions.filter (fun p => p.right.head? = some p.left)

/-- The conflict report of detect_parsing_table_ambiguity: an ordered
association of (non-terminal, terminal) keys to competing productions. -/
abbrev AmbEntries := List ((String × String) × List Production)

/-- The ambiguous_entries update of parser1.py lines 290-296: a fresh key
stores both the table occupant and the newcomer; an existing key appends
the newcomer. -/
def aeAdd (es : AmbEntries) (k : String × String) (old p : Production) : AmbEntries :=
  match es.find? (fun e => e.1 = k) with
  | some _ => es.map (fun e => if e.1 = k then (e.1, e.2 ++ [p]) else e)
  | none => es ++ [(k, [old, p])]

/-- The shared per-terminal conflict check of parser1.py lines 288-308: a
conflict is recorded only when the key is already present in the parsing
table with a different production. -/
def ambCheck (table : Table) (left : String) (p : Production)
    (es : AmbEntries) (t : String) : AmbEntries :=
  match tblLookup table (left, t) with
  | some q => if q ≠ p then aeAdd es (left, t) q p else es
  | none => es

/-- detect_parsing_table_ambiguity (parser1.py lines 274-310), with the
parsing table it inspects made explicit: in the prepare_parser flow that
table is still empty when this runs. -/
def detect_parsing_table_ambiguity (g : CFG) (first follow : SMap) (table : Table) :
    AmbEntries :=
  g.productions.foldl
    (fun es p =>
      let fos := compute_first_of_string g first p.right
      let es1 := (fos.filter (fun x => x ≠ "ε")).foldl (ambCheck table p.left p) es
      if "ε" ∈ fos then (follow p.left).foldl (ambCheck table p.left p) es1 else es1)
    []

/-- validate_grammar (parser1.py lines 217-343) as invoked by
prepare_parser: the direct left recursion check, then the table ambiguity
check against the still-empty parsing table (the indirect left recursion
check is commented out in the source and never runs; FIRST and FOLLOW are
computed inside the ambiguity detector since they are empty at this
point).  No exception can arise in the modelled fragment. -/
def validate_grammar (g : CFG) : Bool :=
  if detect_direct_left_recursion g ≠ [] then false
  else if detect_parsing_table_ambiguity g (compute_first_sets g)
      (compute_follow_sets g (compute_first_sets g)) [] ≠ [] then false
  else true

/-- prepare_parser (parser1.py lines 345-363): validation gate, then
FIRST, FOLLOW and the parsing table are built and True is returned.  The
pair returns the verdict together with the table state (empty when
validation fails, since construction is never reached). -/
def prepareParser (g : CFG) : Bool × Table :=
  if validate_grammar g then
    (true, build_parsing_table g (compute_first_sets g)
      (compute_follow_sets g (compute_first_sets g)))
  else (false, [])

/-- The outcomes of the plain parse function (parser.py lines 139-165):
the returned booleans, the uncaught IndexError raised by
input_string[index] when the cursor is past the end, and fuel exhaustion
of the model (the Python loop would still be running). -/
inductive PyResult where
  | retTrue
  | retFalse
  | indexError
  | timeout
deriving DecidableEq, Repr

/-- The loop of parse (parser.py lines 147-164).  The stack is held top
first (Python pops the list tail); expanding a production pushes its body
symbols so that the leftmost becomes the new top, which is exactly
prepending the body.  The current token is read unguarded from the input,
so an out-of-range cursor is the IndexError outcome. -/
def parseLoop (terms : List String) (table : Table) (input : List String) :
    Nat → List String → Nat → PyResult
  | 0, _, _ => .timeout
  | fuel + 1, stack, idx =>
    match stack with
    | [] => .retTrue
    | top :: rest =>
      match input[idx]? with
      | none => .indexError
      | some cur =>
        if top ∈ terms ∨ top = "$" then
          if top = cur then parseLoop terms table input fuel rest (idx + 1)
          else .retFalse
        else
          match tblLookup table (top, cur) with
          | none => .retFalse
          | some p =>
            if p.right = ["ε"] then parseLoop terms table input fuel rest idx
            else parseLoop terms table input fuel (p.right ++ rest) idx

/-- parse (parser.py lines 139-165): append the end marker to the tokens,
seed the stack with end marker below the start symbol, and run the loop. -/
def parse (g : CFG) (table : Table) (tokens : List String) (fuel : Nat) : PyResult :=
  parseLoop g.terminals table (tokens ++ ["$"]) fuel [g.start_symbol, "$"] 0

/-- The printed outcomes of parse_with_trace (parser1.py lines 172-215):
the success message, the two error messages, the unsuccessful message
printed when the stack empties, the (structurally unreachable) unguarded
index read, and fuel exhaustion of the model. -/
inductive TraceResult where
  | success
  | mismatchError
  | noProduction
  | unsuccessful
  | indexError
  | timeout
deriving DecidableEq, Repr

/-- The loop of parse_with_trace (parser1.py lines 184-215).  It differs
from the plain loop in two ways: after a successful match it declares
success as soon as the cursor reaches the input length, and falling out of
the loop with an empty stack prints the unsuccessful message. -/
def traceLoop (terms : List String) (table : Table) (input : List String) :
    Nat → List String → Nat → TraceResult
  | 0, _, _ => .timeout
  | fuel + 1, stack, idx =>
    match stack with
    | [] => .unsuccessful
    | top :: rest =>
      match input[idx]? with
      | none => .indexError
      | some cur =>
        if top ∈ terms ∨ top = "$" then
          if top = cur then
            if input.length ≤ idx + 1 then .success
            else traceLoop terms table input fuel rest (idx + 1)
          else .mismatchError
        else
          match tblLookup table (top, cur) with
          | none => .noProduction
          | some p =>
            if p.right = ["ε"] then traceLoop terms table input fuel rest idx
            else traceLoop terms table input fuel (p.right ++ rest) idx

/-- parse_with_trace (parser1.py lines 172-215), same initial state as the
plain parse. -/
def parseWithTrace (g : CFG) (table : Table) (tokens : List String) (fuel : Nat) :
    TraceResult :=
  traceLoop g.terminals table (tokens ++ ["$"]) fuel [g.start_symbol, "$"] 0

/-- Claim C1 grammar: S -> a S b | a S c. -/
def g1 : CFG :=
  ⟨[⟨"S", ["a", "S", "b"]⟩, ⟨"S", ["a", "S", "c"]⟩], ["S"], ["a", "b", "c"], "S"⟩

/-- Claim C2 failing grammar: A -> B c, B -> (empty body). -/
def gA : CFG :=
  ⟨[⟨"A", ["B", "c"]⟩, ⟨"B", []⟩], ["A", "B"], ["c"], "A"⟩

/-- Claim C3 counterexample grammar: S -> a b | a c. -/
def g3 : CFG :=
  ⟨[⟨"S", ["a", "b"]⟩, ⟨"S", ["a", "c"]⟩], ["S"], ["a", "b", "c"], "S"⟩

/-- Claim C4 failing grammar: S -> B C D, B -> b, C -> (empty), D -> d. -/
def gF : CFG :=
  ⟨[⟨"S", ["B", "C", "D"]⟩, ⟨"B", ["b"]⟩, ⟨"C", []⟩, ⟨"D", ["d"]⟩],
    ["S", "B", "C", "D"], ["b", "d"], "S"⟩

/-- Claim C5 failing grammar, indirectly left recursive: S -> A a, A -> S b. -/
def gI : CFG :=
  ⟨[⟨"S", ["A", "a"]⟩, ⟨"A", ["S", "b"]⟩], ["S", "A"], ["a", "b"], "S"⟩

/-- Claim C9 grammar: S -> S a | b. -/
def g9 : CFG :=
  ⟨[⟨"S", ["S", "a"]⟩, ⟨"S", ["b"]⟩], ["S"], ["a", "b"], "S"⟩

/-- Claim C8 expression grammar.  The literal ε body symbol is lowercase
for the ingestion heuristic, hence a member of the terminal set. -/
def gE : CFG :=
  ⟨[⟨"E", ["T", "EREST"]⟩,
    ⟨"EREST", ["+", "T", "EREST"]⟩, ⟨"EREST", ["ε"]⟩,
    ⟨"T", ["F", "TREST"]⟩,
    ⟨"TREST", ["*", "F", "TREST"]⟩, ⟨"TREST", ["ε"]⟩,
    ⟨"F", ["(", "E", ")"]⟩, ⟨"F", ["num"]⟩],
    ["E", "EREST", "T", "TREST", "F"],
    ["+", "ε", "*", "(", ")", "num"], "E"⟩

/-- Tiny accepting grammar S -> a, used for the C7 divergence and the
amended-claim witnesses. -/
def gS : CFG := ⟨[⟨"S", ["a"]⟩], ["S"], ["a"], "S"⟩

/-- Claim C6 crash grammar: S -> $ a, the end marker used as an ordinary
terminal (it is lowercase for the ingestion heuristic). -/
def gDollar : CFG := ⟨[⟨"S", ["$", "a"]⟩], ["S"], ["$", "a"], "S"⟩

/-- Claim C10 counterexample grammar: S -> A ε, A -> a, with the literal
empty marker as a terminal occurring after a non-terminal. -/
def gEps : CFG :=
  ⟨[⟨"S", ["A", "ε"]⟩, ⟨"A", ["a"]⟩], ["S", "A"], ["ε", "a"], "S"⟩

/-- Every value of every key of a set map lies in the allowed list or is
the distinguished extra marker. -/
def setsIn (m : SMap) (allowed : List String) (extra : String) : Prop :=
  ∀ s x, x ∈ m s → x ∈ allowed ∨ x = extra

/-- The stack shape invariant of the parse loop: the end marker sits at
the bottom of the stack and nowhere else. -/
def StackOk (stack : List String) : Prop :=
  ∃ s, stack = s ++ ["$"] ∧ "$" ∉ s

/-- Every production stored in the table has an end-marker-free body. -/
abbrev TableOk (table : Table) : Prop :=
  ∀ e ∈ table, "$" ∉ e.2.right

/-- Claim C1.  The claim states that for the grammar S -> a S b | a S c
grammar validation produces a non-empty conflict report at key (S, a) and
prepare_parser does not return True.  The code does the opposite: in the
prepare_parser flow, detect_parsing_table_ambiguity inspects the parsing
table before build_parsing_table has run, so the table is empty, no key is
ever found occupied, the conflict report is empty, validation succeeds and
prepare_parser returns True. -/
theorem c1_code_bug :
    (prepareParser g1).1 = true ∧
      detect_parsing_table_ambiguity g1 (compute_first_sets g1)
        (compute_follow_sets g1 (compute_first_sets g1)) [] = [] := by
  constructor
  · rfl
  · rfl

/-- Claim C2.  The claim states that the fixed point of compute_first_sets
equals, for each non-terminal, the union over its productions of the full
left-to-right nullable walk of the body.  The code only inspects the first
body symbol: for the grammar A -> B c, B -> (empty), the walk of the body
B c yields the set containing c, yet the computed first set of A stays
empty because the nullable head symbol B is never stepped over. -/
theorem c2_code_bug :
    compute_first_sets gA "A" = [] ∧
      compute_first_of_string gA (compute_first_sets gA) ["B", "c"] = ["c"] := by
  constructor
  · rfl
  · rfl

/-- Claim C4.  The claim states the full FOLLOW equations: for a
production A -> ... B beta, FIRST of the whole suffix beta feeds
FOLLOW(B), and FOLLOW(A) propagates only when the whole suffix is
nullable.  The code looks at exactly one symbol after B: for the grammar
S -> B C D, B -> b, C -> (empty), D -> d, FIRST(C D) is the set containing
d, yet FOLLOW(B) comes out as exactly the end marker - d is missing (only
FIRST(C) was consulted) and the end marker was wrongly propagated from
FOLLOW(S) even though D is not nullable. -/
theorem c4_code_bug :
    compute_follow_sets gF (compute_first_sets gF) "B" = ["$"] ∧
      compute_first_of_string gF (compute_first_sets gF) ["C", "D"] = ["d"] := by
  constructor
  · rfl
  · rfl

/-- Claim C5.  The claim states that every grammar with indirect left
recursion is rejected by validation with the offending non-terminals
reported.  In the source the call to detect_indirect_left_recursion inside
validate_grammar is commented out, so for the indirectly left-recursive
grammar S -> A a, A -> S b validation succeeds and prepare_parser
returns True. -/
theorem c5_code_bug :
    validate_grammar gI = true ∧ (prepareParser gI).1 = true := by
  constructor
  · rfl
  · rfl

/-- Claim C9.  For the grammar S -> S a | b, detect_direct_left_recursion
flags exactly the production S -> S a, and prepare_parser returns False
with the parsing table never constructed. -/
theorem c9_confirmed :
    detect_direct_left_recursion g9 = [⟨"S", ["S", "a"]⟩] ∧
      prepareParser g9 = (false, []) := by
  constructor
  · rfl
  · rfl

/-- Claim C8.  The expression grammar accepts num + num * num and
( num + num ) * num and rejects num * num + with the parser built by
prepare_parser. -/
theorem c8_confirmed :
    parse gE (prepareParser gE).2 ["num", "+", "num", "*", "num"] 100 = .retTrue ∧
      parse gE (prepareParser gE).2 ["(", "num", "+", "num", ")", "*", "num"] 100 = .retTrue ∧
      parse gE (prepareParser gE).2 ["num", "*", "num", "+"] 100 = .retFalse := by
  refine ⟨?_, ?_, ?_⟩
  · rfl
  · rfl
  · rfl

/-- Claim C3, counterexample.  The claim states first-write-wins with
conflicts recorded during table construction.  For the grammar
S -> a b | a c both productions target the slot (S, a);
build_parsing_table silently overwrites, so the retained entry is the
second (last-written) production S -> a c, not the first-written S -> a b,
and build_parsing_table records nothing (its only output is the table). -/
theorem c3_counterexample :
    tblLookup (build_parsing_table g3 (compute_first_sets g3)
        (compute_follow_sets g3 (compute_first_sets g3))) ("S", "a")
      = some ⟨"S", ["a", "c"]⟩ ∧
      (⟨"S", ["a", "c"]⟩ : Production) ≠ ⟨"S", ["a", "b"]⟩ := by
  constructor
  · rfl
  · decide

/-- Claim C6, counterexample.  The claim states that a step whose cursor
is past the end reads the end marker and that parse never raises.  For the
grammar S -> $ a (the end marker used as an ordinary terminal) on the
empty token sequence, the parse matches the appended end marker while the
stack still holds the symbol a, and the next step indexes past the end of
the input: the Python code raises IndexError. -/
theorem c6_counterexample :
    parse gDollar (prepareParser gDollar).2 [] 10 = .indexError := by
  rfl

/-- Claim C7, counterexample.  The claim states that the traced variant
decides exactly as the plain parse on every token sequence.  On the tokens
a $ b with grammar S -> a, the plain parse empties its stack after
matching a and the mid-input end marker and returns True, while the traced
variant, whose success requires the cursor to reach the end of the input,
falls out of its loop and prints the unsuccessful message. -/
theorem c7_counterexample :
    parse gS (prepareParser gS).2 ["a", "$", "b"] 10 = .retTrue ∧
      parseWithTrace gS (prepareParser gS).2 ["a", "$", "b"] 10 = .unsuccessful := by
  constructor
  · rfl
  · rfl

/-- Claim C10, counterexample.  The claim states FOLLOW sets never contain
the empty marker.  When the literal empty marker is itself a terminal of
the grammar (as the ingestion heuristic produces for a body symbol ε), it
enters a FOLLOW set like any other terminal: in S -> A ε, A -> a the
symbol after A is the terminal ε, so FOLLOW(A) contains ε. -/
theorem c10_counterexample :
    "ε" ∈ compute_follow_sets gEps (compute_first_sets gEps) "A" := by
  decide

theorem tblLookup_cons (k' : String × String) (p : Production) (t : Table)
    (k : String × String) :
    tblLookup ((k', p) :: t) k = if k' = k then some p else tblLookup t k := by
  by_cases h : k' = k
  · simp [tblLookup, List.find?_cons, h]
  · simp [tblLookup, List.find?_cons, h]

theorem lookup_writeFold (p : Production) :
    ∀ (ks : List (String × String)) (t0 : Table) (k : String × String),
      tblLookup (ks.foldl (fun t k' => (k', p) :: t) t0) k
        = if k ∈ ks then some p else tblLookup t0 k := by
  intro ks
  induction ks with
  | nil => intro t0 k; simp
  | cons k' ks ih =>
    intro t0 k
    simp only [List.foldl_cons]
    rw [ih]
    by_cases hk : k ∈ ks
    · simp [hk]
    · by_cases he : k = k'
      · simp [hk, he, tblLookup_cons]
      · have : ¬ (k' = k) := fun hh => he hh.symm
        simp [hk, he, tblLookup_cons, this]

theorem lookup_buildFold (g : CFG) (first follow : SMap) :
    ∀ (ps : List Production) (t0 : Table) (k : String × String),
      tblLookup (ps.foldl
          (fun t p => (tableWrites g first follow p).foldl (fun t k' => (k', p) :: t) t)
          t0) k
        = ((ps.reverse.find? (fun p => decide (k ∈ tableWrites g first follow p))).elim
            (tblLookup t0 k) some) := by
  intro ps
  induction ps with
  | nil => intro t0 k; simp [Option.elim]
  | cons p ps ih =>
    intro t0 k
    simp only [List.foldl_cons, List.reverse_cons]
    rw [ih, List.find?_append]
    cases h : ps.reverse.find? (fun p => decide (k ∈ tableWrites g first follow p)) with
    | none =>
      simp only [Option.or, Option.elim]
      rw [lookup_writeFold]
      by_cases hw : k ∈ tableWrites g first follow p
      · simp [List.find?_cons, hw]
      · simp [List.find?_cons, hw]
    | some q => simp [Option.or, Option.elim]

/-- Claim C3, amended.  What build_parsing_table actually does, for every
grammar and every FIRST/FOLLOW input: each directed write is an
unconditional dictionary assignment, so the entry retained at a slot is
the production of the last write in production order (last-write-wins),
and no conflict is recorded during construction - the table entry at any
key equals the last production in the production list that directs into
that key (and is absent when no production does). -/
theorem c3_amended (g : CFG) (first follow : SMap) (k : String × String) :
    tblLookup (build_parsing_table g first follow) k
      = g.productions.reverse.find? (fun p => decide (k ∈ tableWrites g first follow p)) := by
  unfold build_parsing_table
  rw [lookup_buildFold]
  cases h : g.productions.reverse.find?
      (fun p => decide (k ∈ tableWrites g first follow p)) with
  | none => simp [Option.elim, tblLookup]
  | some q => simp [Option.elim]

theorem mem_sadd {l : List String} {x y : String} (h : x ∈ sadd l y) :
    x ∈ l ∨ x = y := by
  unfold sadd at h
  split at h
  · exact Or.inl h
  · rcases List.mem_append.1 h with h | h
    · exact Or.inl h
    · exact Or.inr (List.mem_singleton.1 h)

theorem mem_supdate {add : List String} :
    ∀ {l : List String} {x : String}, x ∈ supdate l add → x ∈ l ∨ x ∈ add := by
  induction add with
  | nil => intro l x h; exact Or.inl h
  | cons a rest ih =>
    intro l x h
    unfold supdate at h
    simp only [List.foldl_cons] at h
    rcases ih h with h' | h'
    · rcases mem_sadd h' with h'' | h''
      · exact Or.inl h''
      · exact Or.inr (h'' ▸ List.mem_cons_self a rest)
    · exact Or.inr (List.mem_cons_of_mem a h')

theorem setsIn_mupdate {m : SMap} {allowed : List String} {extra k : String}
    {f : List String → List String} (hm : setsIn m allowed extra)
    (hf : ∀ x, x ∈ f (m k) → x ∈ allowed ∨ x = extra) :
    setsIn (mupdate m k f) allowed extra := by
  intro s x hx
  unfold mupdate at hx
  split at hx
  · exact hf x hx
  · exact hm s x hx

theorem setsIn_filter_ne {m : SMap} {allowed : List String} {s : String}
    (hm : setsIn m allowed "ε") {x : String}
    (hx : x ∈ (m s).filter (fun x => x ≠ "ε")) : x ∈ allowed := by
  have h := List.mem_filter.1 hx
  rcases hm s x h.1 with h' | h'
  · exact h'
  · exact absurd h' (by simpa using h.2)

theorem firstUpd_inv (g : CFG) {m : SMap} (pl fs : String)
    (h : setsIn m g.terminals "ε") : setsIn (firstUpd g m pl fs) g.terminals "ε" := by
  unfold firstUpd
  split
  case isTrue hfs =>
    apply setsIn_mupdate h
    intro x hx
    rcases mem_sadd hx with h' | h'
    · exact h _ _ h'
    · exact Or.inl (h' ▸ hfs)
  case isFalse hfs =>
    apply setsIn_mupdate h
    intro x hx
    rcases mem_supdate hx with h' | h'
    · exact h _ _ h'
    · exact Or.inl (setsIn_filter_ne h h')

theorem firstStep_inv (g : CFG) (p : Production) {acc : SMap × Bool}
    (h : setsIn acc.1 g.terminals "ε") :
    setsIn (firstStep g acc p).1 g.terminals "ε" := by
  obtain ⟨pl, pr⟩ := p
  cases pr with
  | nil =>
    show setsIn (mupdate acc.1 pl (fun l => sadd l "ε")) g.terminals "ε"
    apply setsIn_mupdate h
    intro x hx
    rcases mem_sadd hx with h' | h'
    · exact h _ _ h'
    · exact Or.inr h'
  | cons fs rest =>
    show setsIn (firstUpd g acc.1 pl fs) g.terminals "ε"
    exact firstUpd_inv g pl fs h

theorem firstFold_inv (g : CFG) :
    ∀ (ps : List Production) (acc : SMap × Bool), setsIn acc.1 g.terminals "ε" →
      setsIn (ps.foldl (firstStep g) acc).1 g.terminals "ε" := by
  intro ps
  induction ps with
  | nil => intro acc h; exact h
  | cons p ps ih =>
    intro acc h
    simp only [List.foldl_cons]
    exact ih _ (firstStep_inv g p h)

theorem firstIter_inv (g : CFG) :
    ∀ (n : Nat) (m : SMap), setsIn m g.terminals "ε" →
      setsIn (firstIter g n m) g.terminals "ε" := by
  intro n
  induction n with
  | zero => intro m h; exact h
  | succ n ih =>
    intro m h
    show setsIn (if (firstPass g m).2 then firstIter g n (firstPass g m).1
      else (firstPass g m).1) g.terminals "ε"
    split
    · exact ih _ (firstFold_inv g g.productions (m, false) h)
    · exact firstFold_inv g g.productions (m, false) h

theorem compute_first_inv (g : CFG) : setsIn (compute_first_sets g) g.terminals "ε" :=
  firstIter_inv g _ _ (fun _ x hx => absurd hx (List.not_mem_nil x))

theorem followNext_inv (g : CFG) {first : SMap} (hf : setsIn first g.terminals "ε")
    (sym nxt : String) {m : SMap} (h : setsIn m g.terminals "$") :
    setsIn (followNext g first sym nxt m) g.terminals "$" := by
  unfold followNext
  split
  case isTrue hnx =>
    apply setsIn_mupdate h
    intro x hx
    rcases mem_sadd hx with h' | h'
    · exact h _ _ h'
    · exact Or.inl (h' ▸ hnx)
  case isFalse hnx =>
    apply setsIn_mupdate h
    intro x hx
    rcases mem_supdate hx with h' | h'
    · exact h _ _ h'
    · exact Or.inl (setsIn_filter_ne hf h')

theorem followPos_inv (g : CFG) {first : SMap} (hf : setsIn first g.terminals "ε")
    (left sym : String) (rest : List String) {m : SMap}
    (h : setsIn m g.terminals "$") :
    setsIn (followPos g first left sym rest m) g.terminals "$" := by
  cases rest with
  | nil =>
    show setsIn (mupdate m sym (fun l => supdate l (m left))) g.terminals "$"
    apply setsIn_mupdate h
    intro x hx
    rcases mem_supdate hx with h' | h'
    · exact h _ _ h'
    · exact h _ _ h'
  | cons nxt rest' =>
    show setsIn (if "ε" ∈ first nxt then
        mupdate (followNext g first sym nxt m) sym
          (fun l => supdate l (followNext g first sym nxt m left))
      else followNext g first sym nxt m) g.terminals "$"
    have h1 := followNext_inv g hf sym nxt h
    split
    · apply setsIn_mupdate h1
      intro x hx
      rcases mem_supdate hx with h' | h'
      · exact h1 _ _ h'
      · exact h1 _ _ h'
    · exact h1

theorem followBody_inv (g : CFG) {first : SMap} (hf : setsIn first g.terminals "ε")
    (left : String) :
    ∀ (body : List String) (acc : SMap × Bool), setsIn acc.1 g.terminals "$" →
      setsIn (followBody g first left body acc).1 g.terminals "$" := by
  intro body
  induction body with
  | nil => intro acc h; exact h
  | cons sym rest ih =>
    intro acc h
    rw [followBody]
    split
    · exact ih _ (followPos_inv g hf left sym rest h)
    · exact ih acc h

theorem followFold_inv (g : CFG) {first : SMap} (hf : setsIn first g.terminals "ε") :
    ∀ (ps : List Production) (acc : SMap × Bool), setsIn acc.1 g.terminals "$" →
      setsIn (ps.foldl (fun acc p => followBody g first p.left p.right acc) acc).1
        g.terminals "$" := by
  intro ps
  induction ps with
  | nil => intro acc h; exact h
  | cons p ps ih =>
    intro acc h
    simp only [List.foldl_cons]
    exact ih _ (followBody_inv g hf p.left p.right acc h)

theorem followIter_inv (g : CFG) {first : SMap} (hf : setsIn first g.terminals "ε") :
    ∀ (n : Nat) (m : SMap), setsIn m g.terminals "$" →
      setsIn (followIter g first n m) g.terminals "$" := by
  intro n
  induction n with
  | zero => intro m h; exact h
  | succ n ih =>
    intro m h
    show setsIn (if (followPass g first m).2 then
      followIter g first n (followPass g first m).1 else (followPass g first m).1)
      g.terminals "$"
    split
    · exact ih _ (followFold_inv g hf g.productions (m, false) h)
    · exact followFold_inv g hf g.productions (m, false) h

theorem compute_follow_inv (g : CFG) :
    setsIn (compute_follow_sets g (compute_first_sets g)) g.terminals "$" := by
  apply followIter_inv g (compute_first_inv g)
  apply setsIn_mupdate (fun _ x hx => absurd hx (List.not_mem_nil x))
  intro x hx
  rcases mem_sadd hx with h' | h'
  · exact absurd h' (List.not_mem_nil x)
  · exact Or.inr h'

/-- Claim C10, amended.  After FIRST and FOLLOW computation, every FOLLOW
set is contained in the terminal set together with the end marker; the
empty marker can only appear if it is itself one of the grammar terminals
(as happens when a literal ε body symbol is classified as a terminal), so
for grammars whose terminal set excludes the empty marker no FOLLOW set
contains it. -/
theorem c10_amended (g : CFG) (A x : String)
    (hx : x ∈ compute_follow_sets g (compute_first_sets g) A) :
    (x ∈ g.terminals ∨ x = "$") ∧ ("ε" ∉ g.terminals → x ≠ "ε") := by
  have h := compute_follow_inv g A x hx
  refine ⟨h, ?_⟩
  intro hε hxe
  subst hxe
  rcases h with h | h
  · exact hε h
  · exact absurd h (by decide)

/-- Witness for the amended claim C10, at the grammar S -> a, the
non-terminal S and the end marker. -/
theorem c10_witness :
    ("$" ∈ compute_follow_sets gS (compute_first_sets gS) "S") ∧
      (("$" ∈ gS.terminals ∨ "$" = "$") ∧ ("ε" ∉ gS.terminals → "$" ≠ "ε")) :=
  ⟨by decide, c10_amended gS "S" "$" (by decide)⟩

theorem tblLookup_body {table : Table} (hT : TableOk table) {k : String × String}
    {p : Production} (h : tblLookup table k = some p) : "$" ∉ p.right := by
  unfold tblLookup at h
  cases hf : table.find? (fun e => e.1 = k) with
  | none => rw [hf] at h; exact absurd h (by simp)
  | some e =>
    rw [hf] at h
    have he : e.2 = p := by simpa using h
    have := hT e (List.mem_of_find?_eq_some hf)
    rw [he] at this
    exact this

theorem input_get {tokens : List String} (hd : "$" ∉ tokens) {idx : Nat}
    (hle : idx ≤ tokens.length) :
    ∃ cur, (tokens ++ ["$"])[idx]? = some cur ∧ (cur = "$" ↔ idx = tokens.length) := by
  rcases Nat.lt_or_ge idx tokens.length with hlt | hge
  · refine ⟨tokens[idx], ?_, ?_⟩
    · rw [List.getElem?_append, if_pos hlt, List.getElem?_eq_getElem hlt]
    · constructor
      · intro hcur
        exact absurd (hcur ▸ List.getElem_mem hlt) hd
      · intro hidx
        omega
  · have hidx : idx = tokens.length := Nat.le_antisymm hle hge
    subst hidx
    exact ⟨"$", List.getElem?_concat_length tokens "$", by simp⟩

theorem parseLoop_empty (terms : List String) (table : Table) (input : List String)
    (fuel idx : Nat) :
    parseLoop terms table input fuel [] idx = .retTrue ∨
      parseLoop terms table input fuel [] idx = .timeout := by
  cases fuel with
  | zero => exact Or.inr rfl
  | succ n => exact Or.inl rfl

theorem parseLoop_no_crash (terms : List String) (table : Table) (tokens : List String)
    (hd : "$" ∉ tokens) (hT : TableOk table) :
    ∀ (fuel : Nat) (stack : List String) (idx : Nat), StackOk stack →
      idx ≤ tokens.length →
      parseLoop terms table (tokens ++ ["$"]) fuel stack idx ≠ .indexError := by
  intro fuel
  induction fuel with
  | zero =>
    intro stack idx _ _
    simp [parseLoop]
  | succ fuel ih =>
    intro stack idx hs hidx
    obtain ⟨s, rfl, hsn⟩ := hs
    obtain ⟨cur, hcur, hcureq⟩ := input_get hd hidx
    cases s with
    | nil =>
      simp only [List.nil_append, parseLoop]
      rw [hcur]
      simp only [or_true, if_true]
      by_cases hm : "$" = cur
      · rw [if_pos hm]
        rcases parseLoop_empty terms table (tokens ++ ["$"]) fuel (idx + 1) with h | h <;>
          simp [h]
      · rw [if_neg hm]
        simp
    | cons x s' =>
      rw [List.mem_cons] at hsn
      push_neg at hsn
      obtain ⟨hx, hs'⟩ := hsn
      simp only [List.cons_append, parseLoop]
      rw [hcur]
      dsimp only
      by_cases hterm : x ∈ terms ∨ x = "$"
      · rw [if_pos hterm]
        by_cases hm : x = cur
        · rw [if_pos hm]
          apply ih _ _ ⟨s', rfl, hs'⟩
          have hcne : cur ≠ "$" := fun hc => hx (by rw [hm, hc])
          have : idx ≠ tokens.length := fun he => hcne (hcureq.2 he)
          omega
        · rw [if_neg hm]
          simp
      · rw [if_neg hterm]
        cases hlk : tblLookup table (x, cur) with
        | none => simp
        | some p =>
          simp only []
          by_cases hε : p.right = ["ε"]
          · rw [if_pos hε]
            exact ih _ _ ⟨s', rfl, hs'⟩ hidx
          · rw [if_neg hε]
            have hpr := tblLookup_body hT hlk
            apply ih _ _ ?_ hidx
            refine ⟨p.right ++ s', by rw [List.append_assoc], ?_⟩
            intro hmem
            rcases List.mem_append.1 hmem with h | h
            · exact hpr h
            · exact hs' h

/-- Claim C6, amended.  The claim as stated is false: each step reads
input[cursor] unguarded, so a cursor past the end raises an index error
instead of reading the end marker (see the counterexample), and the loop
returns accept whenever the stack empties, even with input remaining.  The
amended statement: provided the end marker is not among the tokens, is not
the start symbol, and occurs in no table entry's body, the cursor never
passes the end, and the parse can only return the plain accept or reject
verdict (or still be running at the fuel bound) - never the index error. -/
theorem c6_amended (g : CFG) (table : Table) (tokens : List String) (fuel : Nat)
    (h1 : "$" ∉ tokens) (h2 : g.start_symbol ≠ "$") (h3 : TableOk table) :
    parse g table tokens fuel ≠ .indexError := by
  unfold parse
  apply parseLoop_no_crash g.terminals table tokens h1 h3
  · exact ⟨[g.start_symbol], rfl, fun h => h2 (List.mem_singleton.1 h).symm⟩
  · exact Nat.zero_le _

/-- Witness for the amended claim C6: the grammar S -> a with its built
table, on the single token a. -/
theorem c6_witness :
    ("$" ∉ ["a"]) ∧ gS.start_symbol ≠ "$" ∧ TableOk (prepareParser gS).2 ∧
      parse gS (prepareParser gS).2 ["a"] 10 ≠ .indexError :=
  ⟨by decide, by decide, by decide,
    c6_amended gS (prepareParser gS).2 ["a"] 10 (by decide) (by decide) (by decide)⟩

theorem parseLoop_nil_eq (terms : List String) (table : Table) (input : List String)
    (fuel idx : Nat) :
    parseLoop terms table input (fuel + 1) [] idx = .retTrue := rfl

theorem parseLoop_cons_eq (terms : List String) (table : Table) (input : List String)
    (fuel : Nat) (top : String) (rest : List String) (idx : Nat) :
    parseLoop terms table input (fuel + 1) (top :: rest) idx =
      match input[idx]? with
      | none => .indexError
      | some cur =>
        if top ∈ terms ∨ top = "$" then
          if top = cur then parseLoop terms table input fuel rest (idx + 1)
          else .retFalse
        else
          match tblLookup table (top, cur) with
          | none => .retFalse
          | some p =>
            if p.right = ["ε"] then parseLoop terms table input fuel rest idx
            else parseLoop terms table input fuel (p.right ++ rest) idx := rfl

theorem traceLoop_cons_eq (terms : List String) (table : Table) (input : List String)
    (fuel : Nat) (top : String) (rest : List String) (idx : Nat) :
    traceLoop terms table input (fuel + 1) (top :: rest) idx =
      match input[idx]? with
      | none => .indexError
      | some cur =>
        if top ∈ terms ∨ top = "$" then
          if top = cur then
            if input.length ≤ idx + 1 then .success
            else traceLoop terms table input fuel rest (idx + 1)
          else .mismatchError
        else
          match tblLookup table (top, cur) with
          | none => .noProduction
          | some p =>
            if p.right = ["ε"] then traceLoop terms table input fuel rest idx
            else traceLoop terms table input fuel (p.right ++ rest) idx := rfl

theorem loop_agree (terms : List String) (table : Table) (tokens : List String)
    (hd : "$" ∉ tokens) (hT : TableOk table) :
    ∀ (fuel : Nat) (stack : List String) (idx : Nat), StackOk stack →
      idx ≤ tokens.length →
      ((parseLoop terms table (tokens ++ ["$"]) fuel stack idx = .retTrue →
          traceLoop terms table (tokens ++ ["$"]) fuel stack idx = .success) ∧
        (traceLoop terms table (tokens ++ ["$"]) fuel stack idx = .success →
          parseLoop terms table (tokens ++ ["$"]) (fuel + 1) stack idx = .retTrue) ∧
        (parseLoop terms table (tokens ++ ["$"]) fuel stack idx = .retFalse ↔
          (traceLoop terms table (tokens ++ ["$"]) fuel stack idx = .mismatchError ∨
            traceLoop terms table (tokens ++ ["$"]) fuel stack idx = .noProduction))) := by
  intro fuel
  induction fuel with
  | zero =>
    intro stack idx _ _
    refine ⟨fun h => ?_, fun h => ?_, ?_⟩
    · exact absurd h (by simp [parseLoop])
    · exact absurd h (by simp [traceLoop])
    · constructor
      · intro h; exact absurd h (by simp [parseLoop])
      · intro h; rcases h with h | h <;> exact absurd h (by simp [traceLoop])
  | succ fuel ih =>
    intro stack idx hs hidx
    obtain ⟨s, rfl, hsn⟩ := hs
    obtain ⟨cur, hcur, hcureq⟩ := input_get hd hidx
    have hlen : (tokens ++ ["$"]).length = tokens.length + 1 := by simp
    cases s with
    | nil =>
      simp only [List.nil_append]
      by_cases hm : "$" = cur
      · have hidxe : idx = tokens.length := hcureq.1 hm.symm
        have hcond : (tokens ++ ["$"]).length ≤ idx + 1 := by rw [hlen]; omega
        have hp : ∀ f : Nat, parseLoop terms table (tokens ++ ["$"]) (f + 1) ["$"] idx
            = parseLoop terms table (tokens ++ ["$"]) f [] (idx + 1) := by
          intro f
          rw [parseLoop_cons_eq, hcur]
          dsimp only
          rw [if_pos (Or.inr rfl), if_pos hm]
        have ht : traceLoop terms table (tokens ++ ["$"]) (fuel + 1) ["$"] idx
            = .success := by
          rw [traceLoop_cons_eq, hcur]
          dsimp only
          rw [if_pos (Or.inr rfl), if_pos hm, if_pos hcond]
        rw [hp fuel, hp (fuel + 1), ht]
        refine ⟨fun _ => rfl,
          fun _ => parseLoop_nil_eq terms table (tokens ++ ["$"]) fuel (idx + 1), ?_⟩
        constructor
        · intro h
          rcases parseLoop_empty terms table (tokens ++ ["$"]) fuel (idx + 1) with he | he <;>
            rw [he] at h <;> exact absurd h (by simp)
        · intro h
          rcases h with h | h <;> exact absurd h (by simp)
      · have hp : ∀ f : Nat, parseLoop terms table (tokens ++ ["$"]) (f + 1) ["$"] idx
            = .retFalse := by
          intro f
          rw [parseLoop_cons_eq, hcur]
          dsimp only
          rw [if_pos (Or.inr rfl), if_neg hm]
        have ht : traceLoop terms table (tokens ++ ["$"]) (fuel + 1) ["$"] idx
            = .mismatchError := by
          rw [traceLoop_cons_eq, hcur]
          dsimp only
          rw [if_pos (Or.inr rfl), if_neg hm]
        rw [hp fuel, hp (fuel + 1), ht]
        refine ⟨fun h => absurd h (by simp), fun h => absurd h (by simp), by simp⟩
    | cons x s' =>
      rw [List.mem_cons] at hsn
      push_neg at hsn
      obtain ⟨hx, hs'⟩ := hsn
      have hso : StackOk (s' ++ ["$"]) := ⟨s', rfl, hs'⟩
      simp only [List.cons_append]
      by_cases hterm : x ∈ terms ∨ x = "$"
      · by_cases hm : x = cur
        · have hne : idx ≠ tokens.length := fun he => hx ((hm.trans (hcureq.2 he)).symm)
          have hlt : idx + 1 ≤ tokens.length := by omega
          have hnc : ¬ ((tokens ++ ["$"]).length ≤ idx + 1) := by rw [hlen]; omega
          have hp : ∀ f : Nat,
              parseLoop terms table (tokens ++ ["$"]) (f + 1) (x :: (s' ++ ["$"])) idx
                = parseLoop terms table (tokens ++ ["$"]) f (s' ++ ["$"]) (idx + 1) := by
            intro f
            rw [parseLoop_cons_eq, hcur]
            dsimp only
            rw [if_pos hterm, if_pos hm]
          have ht : traceLoop terms table (tokens ++ ["$"]) (fuel + 1) (x :: (s' ++ ["$"])) idx
              = traceLoop terms table (tokens ++ ["$"]) fuel (s' ++ ["$"]) (idx + 1) := by
            rw [traceLoop_cons_eq, hcur]
            dsimp only
            rw [if_pos hterm, if_pos hm, if_neg hnc]
          rw [hp fuel, hp (fuel + 1), ht]
          exact ih (s' ++ ["$"]) (idx + 1) hso hlt
        · have hp : ∀ f : Nat,
              parseLoop terms table (tokens ++ ["$"]) (f + 1) (x :: (s' ++ ["$"])) idx
                = .retFalse := by
            intro f
            rw [parseLoop_cons_eq, hcur]
            dsimp only
            rw [if_pos hterm, if_neg hm]
          have ht : traceLoop terms table (tokens ++ ["$"]) (fuel + 1) (x :: (s' ++ ["$"])) idx
              = .mismatchError := by
            rw [traceLoop_cons_eq, hcur]
            dsimp only
            rw [if_pos hterm, if_neg hm]
          rw [hp fuel, hp (fuel + 1), ht]
          refine ⟨fun h => absurd h (by simp), fun h => absurd h (by simp), by simp⟩
      · cases hlk : tblLookup table (x, cur) with
        | none =>
          have hp : ∀ f : Nat,
              parseLoop terms table (tokens ++ ["$"]) (f + 1) (x :: (s' ++ ["$"])) idx
                = .retFalse := by
            intro f
            rw [parseLoop_cons_eq, hcur]
            dsimp only
            rw [if_neg hterm, hlk]
          have ht : traceLoop terms table (tokens ++ ["$"]) (fuel + 1) (x :: (s' ++ ["$"])) idx
              = .noProduction := by
            rw [traceLoop_cons_eq, hcur]
            dsimp only
            rw [if_neg hterm, hlk]
          rw [hp fuel, hp (fuel + 1), ht]
          refine ⟨fun h => absurd h (by simp), fun h => absurd h (by simp), by simp⟩
        | some p =>
          by_cases hε : p.right = ["ε"]
          · have hp : ∀ f : Nat,
                parseLoop terms table (tokens ++ ["$"]) (f + 1) (x :: (s' ++ ["$"])) idx
                  = parseLoop terms table (tokens ++ ["$"]) f (s' ++ ["$"]) idx := by
              intro f
              rw [parseLoop_cons_eq, hcur]
              dsimp only
              rw [if_neg hterm, hlk]
              dsimp only
              rw [if_pos hε]
            have ht : traceLoop terms table (tokens ++ ["$"]) (fuel + 1)
                (x :: (s' ++ ["$"])) idx
                  = traceLoop terms table (tokens ++ ["$"]) fuel (s' ++ ["$"]) idx := by
              rw [traceLoop_cons_eq, hcur]
              dsimp only
              rw [if_neg hterm, hlk]
              dsimp only
              rw [if_pos hε]
            rw [hp fuel, hp (fuel + 1), ht]
            exact ih (s' ++ ["$"]) idx hso hidx
          · have hpr := tblLookup_body hT hlk
            have hok : StackOk (p.right ++ (s' ++ ["$"])) := by
              refine ⟨p.right ++ s', by rw [List.append_assoc], ?_⟩
              intro hmem
              rcases List.mem_append.1 hmem with h | h
              · exact hpr h
              · exact hs' h
            have hp : ∀ f : Nat,
                parseLoop terms table (tokens ++ ["$"]) (f + 1) (x :: (s' ++ ["$"])) idx
                  = parseLoop terms table (tokens ++ ["$"]) f (p.right ++ (s' ++ ["$"])) idx := by
              intro f
              rw [parseLoop_cons_eq, hcur]
              dsimp only
              rw [if_neg hterm, hlk]
              dsimp only
              rw [if_neg hε]
            have ht : traceLoop terms table (tokens ++ ["$"]) (fuel + 1)
                (x :: (s' ++ ["$"])) idx
                  = traceLoop terms table (tokens ++ ["$"]) fuel
                    (p.right ++ (s' ++ ["$"])) idx := by
              rw [traceLoop_cons_eq, hcur]
              dsimp only
              rw [if_neg hterm, hlk]
              dsimp only
              rw [if_neg hε]
            rw [hp fuel, hp (fuel + 1), ht]
            exact ih (p.right ++ (s' ++ ["$"])) idx hok hidx

/-- Claim C7, amended.  The claim as stated is false: on token sequences
containing the end marker (or grammars using it as a symbol) the two
variants diverge (see the counterexample).  The amended statement: for
every grammar, table and token sequence in which the end marker is not
among the tokens, is not the start symbol, and occurs in no table entry's
body, the two variants decide alike - a True verdict of the plain parse is
the traced success (the traced run may decide one step earlier, whence the
one unit of extra fuel in the converse direction), and a False verdict of
the plain parse is exactly a traced terminal-mismatch or
missing-production error. -/
theorem c7_amended (g : CFG) (table : Table) (tokens : List String) (fuel : Nat)
    (h1 : "$" ∉ tokens) (h2 : g.start_symbol ≠ "$") (h3 : TableOk table) :
    (parse g table tokens fuel = .retTrue →
        parseWithTrace g table tokens fuel = .success) ∧
      (parseWithTrace g table tokens fuel = .success →
        parse g table tokens (fuel + 1) = .retTrue) ∧
      (parse g table tokens fuel = .retFalse ↔
        (parseWithTrace g table tokens fuel = .mismatchError ∨
          parseWithTrace g table tokens fuel = .noProduction)) := by
  unfold parse parseWithTrace
  exact loop_agree g.terminals table tokens h1 h3 fuel [g.start_symbol, "$"] 0
    ⟨[g.start_symbol], rfl, fun h => h2 (List.mem_singleton.1 h).symm⟩ (Nat.zero_le _)

/-- Witness for the amended claim C7: the grammar S -> a with its built
table on the single token a, where the plain parse accepts and the traced
run succeeds. -/
theorem c7_witness :
    ("$" ∉ ["a"]) ∧ gS.start_symbol ≠ "$" ∧ TableOk (prepareParser gS).2 ∧
      ((parse gS (prepareParser gS).2 ["a"] 10 = .retTrue →
          parseWithTrace gS (prepareParser gS).2 ["a"] 10 = .success) ∧
        (parseWithTrace gS (prepareParser gS).2 ["a"] 10 = .success →
          parse gS (prepareParser gS).2 ["a"] 11 = .retTrue) ∧
        (parse gS (prepareParser gS).2 ["a"] 10 = .retFalse ↔
          (parseWithTrace gS (prepareParser gS).2 ["a"] 10 = .mismatchError ∨
            parseWithTrace gS (prepareParser gS).2 ["a"] 10 = .noProduction))) :=
  ⟨by decide, by decide, by decide,
    c7_amended gS (prepareParser gS).2 ["a"] 10 (by decide) (by decide) (by decide)⟩
